import Mathlib

/-!
Verification of the flow layout core (collection, distribution, cutout
model) of a typesetting engine, shallowly embedded from the Rust sources
`crates/typst-library/src/layout/cutout.rs`,
`crates/typst-layout/src/flow/distribute.rs` and
`crates/typst-layout/src/flow/collect.rs`.

Lengths (`Abs` in the source, an `f64`-backed length type) are modelled
exactly as integers; all comparisons in the source are plain order
comparisons, so the integer model is faithful for every property stated
here. Weakness levels (`u8` in the source) are modelled as `Nat`.
-/

namespace TypstFlow

/-- Text direction (`typst_library::layout::Dir`). -/
inductive Dir where
  | ltr
  | rtl
  | ttb
  | btt
deriving DecidableEq, Repr

/-- Which side of the region a cutout occupies (`CutoutSide` in cutout.rs). -/
inductive CutoutSide where
  | Start
  | End
deriving DecidableEq, Repr

/-- A rectangular exclusion zone in a region (`RegionCutout` in cutout.rs). -/
structure RegionCutout where
  y_start : Int
  y_end : Int
  side : CutoutSide
  width : Int
  clearance : Int
deriving DecidableEq, Repr

/-- The total width a cutout reduces from available space
(`RegionCutout::total_width`): width plus clearance. -/
def RegionCutout.total_width (c : RegionCutout) : Int :=
  c.width + c.clearance

/-- Whether a y position is within the cutout's vertical range
(`RegionCutout::contains_y`): `y >= y_start && y < y_end`. -/
def RegionCutout.contains_y (c : RegionCutout) (y : Int) : Bool :=
  y ≥ c.y_start && y < c.y_end

/-- Whether the cutout overlaps a vertical range
(`RegionCutout::overlaps_range`): two half-open ranges overlap when
`self.y_start < y_end && y_start < self.y_end`. -/
def RegionCutout.overlaps_range (c : RegionCutout) (y_start y_end : Int) : Bool :=
  c.y_start < y_end && y_start < c.y_end

/-- Information about available width at a vertical position (`WidthInfo`). -/
structure WidthInfo where
  available : Int
  start_offset : Int
  end_offset : Int
deriving DecidableEq, Repr

/-- Full available width with no offsets (`WidthInfo::full`). -/
def WidthInfo.full (width : Int) : WidthInfo :=
  ⟨width, 0, 0⟩

/-- The per-side reduction loop shared verbatim by `width_at` and
`width_in_range` in cutout.rs: starting from zero on both sides, each
cutout selected by `p` raises its side's reduction to the maximum of the
accumulator and the cutout's total width (`Abs::set_max`). `width_at`
instantiates `p` with `contains_y y`, `width_in_range` with
`overlaps_range y_start y_end`. -/
def cutoutReduce (p : RegionCutout → Bool) (cutouts : List RegionCutout) : Int × Int :=
  cutouts.foldl
    (fun acc c =>
      if p c then
        match c.side with
        | CutoutSide.Start => (max acc.1 c.total_width, acc.2)
        | CutoutSide.End => (acc.1, max acc.2 c.total_width)
      else acc)
    (0, 0)

/-- Computes width information at a y position (`width_at` in cutout.rs).
The fast path returns `WidthInfo::full(region_width)` when there are no
cutouts; otherwise available width is clamped at zero and the offsets are
swapped for right-to-left direction. -/
def width_at (region_width y : Int) (cutouts : List RegionCutout) (dir : Dir) :
    WidthInfo :=
  if cutouts.isEmpty then WidthInfo.full region_width
  else
    let r := cutoutReduce (fun c => c.contains_y y) cutouts
    let available := max (region_width - r.1 - r.2) 0
    match dir with
    | Dir.ltr | Dir.ttb | Dir.btt => ⟨available, r.1, r.2⟩
    | Dir.rtl => ⟨available, r.2, r.1⟩

/-- Computes the most restrictive width information across a vertical
range (`width_in_range` in cutout.rs), identical to `width_at` except that
cutouts are selected by `overlaps_range` instead of `contains_y`. -/
def width_in_range (region_width y_start y_end : Int) (cutouts : List RegionCutout)
    (dir : Dir) : WidthInfo :=
  if cutouts.isEmpty then WidthInfo.full region_width
  else
    let r := cutoutReduce (fun c => c.overlaps_range y_start y_end) cutouts
    let available := max (region_width - r.1 - r.2) 0
    match dir with
    | Dir.ltr | Dir.ttb | Dir.btt => ⟨available, r.1, r.2⟩
    | Dir.rtl => ⟨available, r.2, r.1⟩

/-- One step of the reduction loop, named for the lemmas below. -/
def redStep (p : RegionCutout → Bool) (acc : Int × Int) (c : RegionCutout) :
    Int × Int :=
  if p c then
    match c.side with
    | CutoutSide.Start => (max acc.1 c.total_width, acc.2)
    | CutoutSide.End => (acc.1, max acc.2 c.total_width)
  else acc

/-!
## Distributor model

Embeds the state and operations of `Distributor` in flow/distribute.rs.
Out-of-scope external collaborators (the paragraph layouter, block
layouters, composer float/footnote handling) are modelled as oracles or
no-ops as the spec directs; `Rel<Abs>` spacing amounts are taken after
`relative_to` resolution, i.e. as plain lengths.
-/

/-- Widow/orphan costs (`typst_library::text::Costs`), with the two ratios
the flow code reads. -/
structure Costs where
  orphan : Int
  widow : Int
deriving DecidableEq, Repr

/-- A resolved alignment (`FixedAlignment`). -/
inductive FixedAlignment where
  | Start
  | Center
  | End
deriving DecidableEq, Repr

/-- A pair of horizontal and vertical alignments (`Axes<FixedAlignment>`). -/
structure AxesAlign where
  x : FixedAlignment
  y : FixedAlignment
deriving DecidableEq, Repr

/-- A laid-out frame, reduced to the two observations the flow code makes of
it: its height and whether it is empty. -/
structure Frame where
  height : Int
  is_empty : Bool
deriving DecidableEq, Repr

/-- The scope of a placed/wrap element (`PlacementScope`). -/
inductive PlacementScope where
  | column
  | parent
deriving DecidableEq, Repr

/-- A value that can be automatic or custom (`Smart<T>`). -/
inductive Smart (α : Type) where
  | auto
  | custom (val : α)
deriving DecidableEq, Repr

/-- A prepared placed child (`PlacedChild`), reduced to the resolved fields
the collector computes and the distributor reads. -/
structure PlacedChild where
  align_x : FixedAlignment
  align_y : Smart (Option FixedAlignment)
  scope : PlacementScope
  float : Bool
  clearance : Int
deriving DecidableEq, Repr

/-- A prepared unbreakable block (`SingleChild`), reduced to the resolved
fields the distributor reads; its layout call is external. -/
structure SingleChild where
  align : AxesAlign
  sticky : Bool
  alone : Bool
  fr : Option Int
deriving DecidableEq, Repr

/-- A prepared deferred paragraph (`ParChild`). `layoutFn` is the external
paragraph layouter `ParChild::layout` (which calls
`layout_par_with_context`), modelled as an oracle from the cutout list and
y offset to the laid-out line frames. -/
structure ParChild where
  spacing : Int
  leading : Int
  align : AxesAlign
  costs : Costs
  layoutFn : List RegionCutout → Int → List Frame

/-- A laid out item in a distribution (`Item` in distribute.rs). -/
inductive Item where
  | Tag (t : Nat)
  | Abs (amount : Int) (weakness : Nat)
  | Fr (f : Int) (weakness : Nat) (block : Option SingleChild)
  | Frame (frame : Frame) (align : AxesAlign)
  | Placed (frame : Frame) (placed : PlacedChild)
deriving DecidableEq

/-- The spilled remains of a deferred paragraph (`ParSpill`). -/
structure ParSpillRec where
  frames : List Frame
  align : AxesAlign
  leading : Int
  costs : Costs
  spacing : Int
  par : Option ParChild
  lines_placed : Nat

/-- Distribution state: the distributor's `items`, the shrinking region
height `regions.size.y`, the backlog and `last` of the regions, and the
composer work-queue state the distributor mutates (pending tags, parked
paragraph spill, and the number of `work.advance()` calls made). `sticky`
is the item count of the saved sticky snapshot; `stickable` is the saved
tri-state. -/
structure DState where
  items : List Item
  sizeY : Int
  backlog : List Int
  last : Option Int
  tags : List Nat
  parSpillSlot : Option ParSpillRec
  advanced : Nat
  sticky : Option Nat
  stickable : Option Bool

/-- Modelled from the spec: `Regions::is_full` (regions.rs is not under
src/) is true when `size.y ≤ 0`. -/
def isFull (st : DState) : Bool :=
  decide (st.sizeY ≤ 0)

/-- Modelled from the spec: `Regions::may_progress` (regions.rs is not under
src/) is true when a follow-up region of different height exists: the
backlog is nonempty, or the repeating last region's height differs from the
current region height. -/
def mayProgress (st : DState) : Bool :=
  !st.backlog.isEmpty ||
    (match st.last with
     | some h => decide (st.sizeY ≠ h)
     | none => false)

/-- Modelled from the spec: `Abs::fits` (the length type is not under src/):
an amount fits into the available space when it does not exceed it, as in
the spec's scenario arithmetic (34 > 26 does not fit). -/
def fitsIn (space amount : Int) : Bool :=
  decide (amount ≤ space)

/-- Modelled from the spec: `regions.iter().nth(1)` where `iter()` yields
the current region followed by the backlog and then `last` repeated; its
height is the backlog head, or else `last`. -/
def nextRegionY (st : DState) : Option Int :=
  match st.backlog with
  | h :: _ => some h
  | [] => st.last

/-- The current y position (`Distributor::current_y`): the sum of absolute
spacing and frame heights in the items. -/
def currentY (st : DState) : Int :=
  st.items.foldl
    (fun yy it =>
      match it with
      | Item.Abs v _ => yy + v
      | Item.Frame f _ => yy + f.height
      | _ => yy)
    0

/-- Processing a tag child (`Distributor::tag`): push it to the pending
tag list of the work queue. -/
def tagChild (st : DState) (t : Nat) : DState :=
  { st with tags := st.tags ++ [t] }

/-- Generate items for pending tags (`Distributor::flush_tags`). -/
def flushTags (st : DState) : DState :=
  { st with items := st.items ++ st.tags.map Item.Tag, tags := [] }

/-- Scan result of the weak relative spacing scan: whether to keep the new
spacing, the (possibly patched) scanned items, and the amount to subtract
from the region height due to an in-place patch. -/
structure ScanRel where
  keep : Bool
  items : List Item
  delta : Int

/-- The backwards scan of `Distributor::keep_weak_rel_spacing`, expressed on
the reversed item list (the source iterates `items.iter_mut().rev()`): a
previous weak absolute item at most as weak is patched to the new amount
when the new spacing is strictly weaker or larger, and the new item is
always discarded; tags, strong absolute spacing and placed items are peeked
beyond; strong fractional spacing without a block destroys the weak
spacing; frames and fractional blocks support it. -/
def keepWeakRelAux (amount : Int) (weakness : Nat) : List Item → ScanRel
  | [] => ⟨false, [], 0⟩
  | Item.Abs pa pw :: rest =>
    if 1 ≤ pw then
      if weakness ≤ pw ∧ (weakness < pw ∨ pa < amount) then
        ⟨false, Item.Abs amount weakness :: rest, amount - pa⟩
      else
        ⟨false, Item.Abs pa pw :: rest, 0⟩
    else
      let r := keepWeakRelAux amount weakness rest
      ⟨r.keep, Item.Abs pa pw :: r.items, r.delta⟩
  | Item.Tag t :: rest =>
    let r := keepWeakRelAux amount weakness rest
    ⟨r.keep, Item.Tag t :: r.items, r.delta⟩
  | Item.Placed f p :: rest =>
    let r := keepWeakRelAux amount weakness rest
    ⟨r.keep, Item.Placed f p :: r.items, r.delta⟩
  | Item.Fr f w none :: rest => ⟨false, Item.Fr f w none :: rest, 0⟩
  | Item.Fr f w (some s) :: rest => ⟨true, Item.Fr f w (some s) :: rest, 0⟩
  | Item.Frame f al :: rest => ⟨true, Item.Frame f al :: rest, 0⟩

/-- `Distributor::keep_weak_rel_spacing` on the state: runs the backwards
scan and applies the patch's height adjustment
(`regions.size.y -= amount - prev_amount`). -/
def keepWeakRelSpacing (st : DState) (amount : Int) (weakness : Nat) : Bool × DState :=
  let r := keepWeakRelAux amount weakness st.items.reverse
  (r.keep, { st with items := r.items.reverse, sizeY := st.sizeY - r.delta })

/-- Processing relative spacing (`Distributor::rel`), with the amount
already resolved against the region base: weak spacing consults the scan
and is dropped when not kept; kept or strong spacing shrinks the region and
pushes an `Abs` item. -/
def rel (st : DState) (amount : Int) (weakness : Nat) : DState :=
  if 0 < weakness then
    let r := keepWeakRelSpacing st amount weakness
    if r.1 then
      { r.2 with
        sizeY := r.2.sizeY - amount,
        items := r.2.items ++ [Item.Abs amount weakness] }
    else r.2
  else
    { st with
      sizeY := st.sizeY - amount,
      items := st.items ++ [Item.Abs amount weakness] }

/-- The backwards scan of `Distributor::keep_weak_fr_spacing` on the
reversed item list: a previous weak fractional item without a block at most
as weak is patched in place and the new one discarded; tags, absolute
spacing (weak or strong) and placed items are peeked beyond; strong
fractional spacing, frames and fractional blocks support the spacing. -/
def keepWeakFrAux (f : Int) (weakness : Nat) : List Item → Bool × List Item
  | [] => (false, [])
  | Item.Fr pf pw none :: rest =>
    if 1 ≤ pw then
      if weakness ≤ pw ∧ (weakness < pw ∨ pf < f) then
        (false, Item.Fr f weakness none :: rest)
      else
        (false, Item.Fr pf pw none :: rest)
    else
      (true, Item.Fr pf pw none :: rest)
  | Item.Tag t :: rest =>
    let r := keepWeakFrAux f weakness rest
    (r.1, Item.Tag t :: r.2)
  | Item.Abs pa pw :: rest =>
    let r := keepWeakFrAux f weakness rest
    (r.1, Item.Abs pa pw :: r.2)
  | Item.Placed fm p :: rest =>
    let r := keepWeakFrAux f weakness rest
    (r.1, Item.Placed fm p :: r.2)
  | Item.Fr pf pw (some s) :: rest => (true, Item.Fr pf pw (some s) :: rest)
  | Item.Frame fm al :: rest => (true, Item.Frame fm al :: rest)

/-- `Distributor::keep_weak_fr_spacing` on the state. -/
def keepWeakFrSpacing (st : DState) (f : Int) (weakness : Nat) : Bool × DState :=
  let r := keepWeakFrAux f weakness st.items.reverse
  (r.1, { st with items := r.2.reverse })

/-- Trimming of a single trailing weak spacing item
(`Distributor::trim_spacing`), on the reversed item list: the first weak
absolute item is removed and its amount returned to the region, the first
weak fractional item without a block is removed, tags, strong absolute
spacing and placed items are peeked beyond, and any frame or other
fractional item stops the trim. -/
def trimAux : List Item → List Item × Int
  | [] => ([], 0)
  | Item.Abs a w :: rest =>
    if 1 ≤ w then (rest, a)
    else
      let r := trimAux rest
      (Item.Abs a w :: r.1, r.2)
  | Item.Fr f w none :: rest =>
    if 1 ≤ w then (rest, 0) else (Item.Fr f w none :: rest, 0)
  | Item.Fr f w (some s) :: rest => (Item.Fr f w (some s) :: rest, 0)
  | Item.Tag t :: rest =>
    let r := trimAux rest
    (Item.Tag t :: r.1, r.2)
  | Item.Placed fm p :: rest =>
    let r := trimAux rest
    (Item.Placed fm p :: r.1, r.2)
  | Item.Frame fm al :: rest => (Item.Frame fm al :: rest, 0)

/-- `Distributor::trim_spacing` on the state: the removed absolute amount is
added back to the region height. -/
def trimSpacing (st : DState) : DState :=
  let r := trimAux st.items.reverse
  { st with items := r.1.reverse, sizeY := st.sizeY + r.2 }

/-- Processing fractional spacing (`Distributor::fr`): weak spacing
consults the scan and is dropped when not kept; kept or strong spacing
trims trailing weak spacing and pushes a blockless `Fr` item. -/
def fr (st : DState) (f : Int) (weakness : Nat) : DState :=
  if 0 < weakness then
    let r := keepWeakFrSpacing st f weakness
    if r.1 then
      let st2 := trimSpacing r.2
      { st2 with items := st2.items ++ [Item.Fr f weakness none] }
    else r.2
  else
    let st2 := trimSpacing st
    { st2 with items := st2.items ++ [Item.Fr f weakness none] }

/-- The separator items the weak-spacing scan peeks beyond which the claims
mention: tags, strong zero-amount absolute spacing, and non-floating placed
items (the source peeks beyond every `Tag`, every `Abs(_, 0)` and every
`Placed`; this set is contained in it). -/
def PeekSep (it : Item) : Prop :=
  (∃ t, it = Item.Tag t) ∨ it = Item.Abs 0 0 ∨
    (∃ f p, it = Item.Placed f p ∧ p.float = false)

/-- Whether an item is a frame item. -/
def isFrameItem : Item → Bool
  | Item.Frame _ _ => true
  | _ => false

/-- Whether an item is a fractional item (with or without a block). -/
def isFrItem : Item → Bool
  | Item.Fr _ _ _ => true
  | _ => false

/-- Distribution control flow: the `Ok`/`Finish` outcomes of processing a
child (`Stop::Finish`); the external `Relayout` and `Error` outcomes arise
only from out-of-scope composer callbacks and do not occur in this model. -/
inductive Ctl where
  | ok
  | finish (forced : Bool)
deriving DecidableEq, Repr

/-- A prepared line child (`LineChild`): a laid-out line frame with its
alignment and the `need` height required together with its widow/orphan
neighbors. -/
structure LineChild where
  frame : Frame
  align : AxesAlign
  need : Int
deriving DecidableEq, Repr

/-- Processing an in-flow frame (`Distributor::frame`): maintain the sticky
snapshot and the `stickable` tri-state, shrink the region by the frame
height, flush pending tags and push a `Frame` item. The composer footnote
callback is an out-of-scope collaborator and is modelled as a successful
no-op. -/
def frameStep (st : DState) (f : Frame) (align : AxesAlign) (sticky : Bool)
    (_breakable : Bool) : DState :=
  let st1 :=
    if sticky then
      match st.sticky with
      | none =>
        let sb :=
          match st.stickable with
          | some b => b
          | none => mayProgress st
        let stb := { st with stickable := some sb }
        if sb then { stb with sticky := some stb.items.length } else stb
      | some _ => st
    else if !f.is_empty then { st with sticky := none, stickable := none }
    else st
  let st2 := { st1 with sizeY := st1.sizeY - f.height }
  let st3 := flushTags st2
  { st3 with items := st3.items ++ [Item.Frame f align] }

/-- Processing a line of a paragraph (`Distributor::line`): finish the
region when the line's own height does not fit and a follow-up region may
help, or when its `need` does not fit here but fits the next region;
otherwise emit the frame. -/
def lineStep (st : DState) (lc : LineChild) : DState × Ctl :=
  if !fitsIn st.sizeY lc.frame.height && mayProgress st then
    (st, Ctl.finish false)
  else if !fitsIn st.sizeY lc.need &&
      (match nextRegionY st with
       | some h => fitsIn h lc.need
       | none => false) then
    (st, Ctl.finish false)
  else
    (frameStep st lc.frame lc.align false false, Ctl.ok)

/-- Whether orphans are prevented, computed identically (given `len ≥ 2`) by
`Collector::lines` (`!lines[1].is_empty()`) and
`Distributor::process_par_lines` (`frames.get(1).map_or(false, ..)`):
positive orphan cost, at least two lines, and a non-empty second line. -/
def preventOrphansFlag (frames : List Frame) (costs : Costs) : Bool :=
  decide (0 < costs.orphan) && decide (2 ≤ frames.length) &&
    (match frames.get? 1 with
     | some f => !f.is_empty
     | none => false)

/-- Whether widows are prevented: positive widow cost, at least two lines,
and a non-empty second-to-last line. -/
def preventWidowsFlag (frames : List Frame) (costs : Costs) : Bool :=
  decide (0 < costs.widow) && decide (2 ≤ frames.length) &&
    (match frames.get? (frames.length - 2) with
     | some f => !f.is_empty
     | none => false)

/-- Whether all lines must stay together: exactly three lines with both
orphan and widow prevention active. -/
def preventAllFlag (frames : List Frame) (costs : Costs) : Bool :=
  decide (frames.length = 3) && preventOrphansFlag frames costs &&
    preventWidowsFlag frames costs

/-- The height of the i-th line, or zero (`lines.get(i).map(Frame::height)
.unwrap_or_default()`). -/
def heightAt (frames : List Frame) (i : Nat) : Int :=
  match frames.get? i with
  | some f => f.height
  | none => 0

/-- The `need` of line `i`, computed by the identical conditional chain of
`Collector::lines` and `Distributor::process_par_lines`: all three lines
when `prevent_all` and `i = 0`; the first two lines when `prevent_orphans`
and `i = 0`; the last two lines when `prevent_widows`, `i ≥ 2` and
`i + 2 = len`; otherwise the line's own height. -/
def needFor (pA pO pW : Bool) (f1 f2 b2 b1 leading : Int) (len i : Nat)
    (h : Int) : Int :=
  if pA && decide (i = 0) then f1 + leading + f2 + leading + b1
  else if pO && decide (i = 0) then f1 + leading + f2
  else if pW && decide (2 ≤ i) && decide (i + 2 = len) then b2 + leading + b1
  else h

/-- The iteration of `Distributor::process_par_lines` over the remaining
frames with index `i`: leading spacing (weakness 5) before every line but
the first, then the two fit checks of the source; on either failure the
current and remaining frames are parked as the paragraph spill (recording
`lines_placed_before + i` lines placed and advancing the work cursor only
for a fresh paragraph) and the region finishes; otherwise the line's frame
is emitted. After the last line the paragraph's below-spacing (weakness 4)
is added. -/
def parLinesGo (align : AxesAlign) (leading : Int) (costs : Costs)
    (spacing : Int) (advanceOnSpill : Bool) (par : Option ParChild)
    (linesPlacedBefore : Nat) (pA pO pW : Bool) (f1 f2 b2 b1 : Int)
    (len : Nat) : DState → List Frame → Nat → DState × Ctl
  | st, [], _ => (rel st spacing 4, Ctl.ok)
  | st, f :: restF, i =>
    let st1 := if 0 < i then rel st leading 5 else st
    let need := needFor pA pO pW f1 f2 b2 b1 leading len i f.height
    let spillRec : ParSpillRec :=
      ⟨f :: restF, align, leading, costs, spacing, par, linesPlacedBefore + i⟩
    if !fitsIn st1.sizeY f.height && mayProgress st1 then
      let st2 := { st1 with parSpillSlot := some spillRec }
      let st3 := if advanceOnSpill then { st2 with advanced := st2.advanced + 1 }
        else st2
      (st3, Ctl.finish false)
    else if !fitsIn st1.sizeY need &&
        (match nextRegionY st1 with
         | some h => fitsIn h need
         | none => false) then
      let st2 := { st1 with parSpillSlot := some spillRec }
      let st3 := if advanceOnSpill then { st2 with advanced := st2.advanced + 1 }
        else st2
      (st3, Ctl.finish false)
    else
      parLinesGo align leading costs spacing advanceOnSpill par
        linesPlacedBefore pA pO pW f1 f2 b2 b1 len
        (frameStep st1 f align false false) restF (i + 1)

/-- `Distributor::process_par_lines`: compute the widow/orphan flags and the
edge line heights over the full frame list, then iterate from index 0. -/
def processParLines (st : DState) (frames : List Frame) (align : AxesAlign)
    (leading : Int) (costs : Costs) (spacing : Int) (advanceOnSpill : Bool)
    (par : Option ParChild) (linesPlacedBefore : Nat) : DState × Ctl :=
  parLinesGo align leading costs spacing advanceOnSpill par linesPlacedBefore
    (preventAllFlag frames costs) (preventOrphansFlag frames costs)
    (preventWidowsFlag frames costs) (heightAt frames 0) (heightAt frames 1)
    (heightAt frames (frames.length - 2)) (heightAt frames (frames.length - 1))
    frames.length st frames 0

/-- Processing a deferred paragraph (`Distributor::par`): record the current
y position, lay out the paragraph against the composer's current cutouts,
add the above-spacing (weakness 4), then run the line loop; the spill
back-reference to the paragraph is stored only when cutouts were present. -/
def parStep (st : DState) (p : ParChild) (cutouts : List RegionCutout) :
    DState × Ctl :=
  let yOffset := currentY st
  let hasCutouts := !cutouts.isEmpty
  let frames := p.layoutFn cutouts yOffset
  let st1 := rel st p.spacing 4
  processParLines st1 frames p.align p.leading p.costs p.spacing true
    (if hasCutouts then some p else none) 0

/-- Processing spillover from a deferred paragraph
(`Distributor::par_spill`): a full region re-parks the spill and finishes;
when the stored paragraph back-reference exists and the current region has
no cutouts, the paragraph is re-laid at full width and the already placed
lines are skipped; otherwise the stored frames are reused. -/
def parSpillStep (st : DState) (spill : ParSpillRec)
    (cutouts : List RegionCutout) : DState × Ctl :=
  if isFull st then ({ st with parSpillSlot := some spill }, Ctl.finish false)
  else
    match spill.par, cutouts.isEmpty with
    | some p, true =>
      let yOffset := currentY st
      let allFrames := p.layoutFn cutouts yOffset
      let frames := allFrames.drop spill.lines_placed
      processParLines st frames spill.align spill.leading spill.costs
        spill.spacing false none spill.lines_placed
    | _, _ =>
      processParLines st spill.frames spill.align spill.leading spill.costs
        spill.spacing false spill.par spill.lines_placed

/-- Processing a column break (`Distributor::break_`): a weak break with
empty items is ignored; otherwise, if any region remains, advance the work
cursor and finish forced. -/
def breakStep (st : DState) (weak : Bool) : DState × Ctl :=
  if (!weak || !st.items.isEmpty) &&
      (!st.backlog.isEmpty || st.last.isSome) then
    ({ st with advanced := st.advanced + 1 }, Ctl.finish true)
  else (st, Ctl.ok)

/-!
## Collector model

Embeds the parts of `Collector` in flow/collect.rs that the claims are
about: vertical spacing collection, line emission with widow/orphan `need`,
and placed-element validation. Style resolution is external, so resolved
scalars are taken as inputs.
-/

/-- A prepared child (`Child` in collect.rs), restricted to the payload the
claims observe; `Rel` carries its style-resolved amount. -/
inductive Child where
  | Tag (t : Nat)
  | Rel (amount : Int) (weakness : Nat)
  | Fr (f : Int) (weakness : Nat)
  | Line (lc : LineChild)
  | Par (p : ParChild)
  | Single (s : SingleChild)
  | Placed (p : PlacedChild)
  | Flush
  | Break (weak : Bool)

/-- The amount of vertical spacing of a `V` element (`Spacing`): relative
(style-resolved) or fractional. -/
inductive Spacing where
  | rel (amount : Int)
  | fr (f : Int)
deriving DecidableEq, Repr

/-- Collecting a `V` element (`Collector::v`): the element's boolean `weak`
flag is cast directly to the weakness byte (`elem.weak.get(styles) as u8`),
so the weakness is 1 for a weak element and 0 otherwise. -/
def collectV (amount : Spacing) (weak : Bool) : Child :=
  match amount with
  | Spacing.rel r => Child.Rel r (if weak then 1 else 0)
  | Spacing.fr f => Child.Fr f (if weak then 1 else 0)

/-- The weakness of a spacing child, zero for other children. -/
def childWeakness : Child → Nat
  | Child.Rel _ w => w
  | Child.Fr _ w => w
  | _ => 0

/-- Whether a child is a `Rel` or `Fr` spacing child. -/
def isSpacingChild : Child → Bool
  | Child.Rel _ _ => true
  | Child.Fr _ _ => true
  | _ => false

/-- The loop of `Collector::lines` over the line frames with index `i`:
leading spacing (weakness 5) before every line but the first, then a `Line`
child carrying the computed `need`. -/
def collectLinesGo (align : AxesAlign) (leading : Int) (pA pO pW : Bool)
    (f1 f2 b2 b1 : Int) (len : Nat) : List Frame → Nat → List Child
  | [], _ => []
  | f :: restF, i =>
    (if 0 < i then [Child.Rel leading 5] else []) ++
      (Child.Line ⟨f, align, needFor pA pO pW f1 f2 b2 b1 leading len i f.height⟩ ::
        collectLinesGo align leading pA pO pW f1 f2 b2 b1 len restF (i + 1))

/-- `Collector::lines`: compute the widow/orphan flags and the edge line
heights, then emit the interleaved leading and `Line` children. -/
def collectLines (lines : List Frame) (leading : Int) (align : AxesAlign)
    (costs : Costs) : List Child :=
  collectLinesGo align leading (preventAllFlag lines costs)
    (preventOrphansFlag lines costs) (preventWidowsFlag lines costs)
    (heightAt lines 0) (heightAt lines 1) (heightAt lines (lines.length - 2))
    (heightAt lines (lines.length - 1)) lines.length lines 0

/-- The `need` values of the `Line` children of a child list, in order. -/
def lineNeedsOf (children : List Child) : List Int :=
  children.filterMap fun c =>
    match c with
    | Child.Line lc => some lc.need
    | _ => none

/-- The message of `Collector::place` for an invalid vertical float
alignment. -/
def msgVerticalFloat : String :=
  "vertical floating placement must be `auto`, `top`, or `bottom`"

/-- The message of `Collector::place` for automatic positioning without
float. -/
def msgAutoPositioning : String :=
  "automatic positioning is only available for floating placement"

/-- The message of `Collector::place` for parent scope without float. -/
def msgParentScope : String :=
  "parent-scoped positioning is currently only available for floating placement"

/-- Collecting a placed element (`Collector::place`), over the resolved
inputs: the match on `(float, align_y)` rejects a floating placement whose
explicit vertical alignment is center or missing, and a non-floating
placement with automatic alignment; then a non-floating placement with
parent scope is rejected; otherwise a `Placed` child is pushed. -/
def place (float : Bool) (align_x : FixedAlignment)
    (align_y : Smart (Option FixedAlignment)) (scope : PlacementScope)
    (clearance : Int) : Except String Child :=
  match float, align_y with
  | true, Smart.custom none => Except.error msgVerticalFloat
  | true, Smart.custom (some FixedAlignment.Center) =>
    Except.error msgVerticalFloat
  | false, Smart.auto => Except.error msgAutoPositioning
  | _, _ =>
    if !float && scope == PlacementScope.parent then
      Except.error msgParentScope
    else
      Except.ok (Child.Placed ⟨align_x, align_y, scope, float, clearance⟩)

/-- The error message of a `place` result, if any. -/
def placeErrorOf : Except String Child → Option String
  | Except.error m => some m
  | Except.ok _ => none

theorem cutoutReduce_eq_foldl (p : RegionCutout → Bool) (cs : List RegionCutout) :
    cutoutReduce p cs = cs.foldl (redStep p) (0, 0) := rfl

theorem redStep_le (p : RegionCutout → Bool) (acc : Int × Int) (c : RegionCutout) :
    acc.1 ≤ (redStep p acc c).1 ∧ acc.2 ≤ (redStep p acc c).2 := by
  unfold redStep
  by_cases h : p c
  · simp only [h, if_pos]
    cases c.side <;> simp [le_max_left]
  · simp [h]

theorem redStep_mono (p : RegionCutout → Bool) (a b : Int × Int) (c : RegionCutout)
    (h1 : a.1 ≤ b.1) (h2 : a.2 ≤ b.2) :
    (redStep p a c).1 ≤ (redStep p b c).1 ∧ (redStep p a c).2 ≤ (redStep p b c).2 := by
  unfold redStep
  by_cases h : p c
  · rw [if_pos h, if_pos h]
    cases hs : c.side
    · exact ⟨max_le_max h1 (le_refl _), h2⟩
    · exact ⟨h1, max_le_max h2 (le_refl _)⟩
  · rw [if_neg h, if_neg h]
    exact ⟨h1, h2⟩

theorem foldl_redStep_acc_le (p : RegionCutout → Bool) (cs : List RegionCutout) :
    ∀ acc : Int × Int,
      acc.1 ≤ (cs.foldl (redStep p) acc).1 ∧ acc.2 ≤ (cs.foldl (redStep p) acc).2 := by
  induction cs with
  | nil => intro acc; exact ⟨le_refl _, le_refl _⟩
  | cons c rest ih =>
    intro acc
    have hs := redStep_le p acc c
    have hr := ih (redStep p acc c)
    exact ⟨le_trans hs.1 hr.1, le_trans hs.2 hr.2⟩

theorem foldl_redStep_mono_acc (p : RegionCutout → Bool) (cs : List RegionCutout) :
    ∀ a b : Int × Int, a.1 ≤ b.1 → a.2 ≤ b.2 →
      (cs.foldl (redStep p) a).1 ≤ (cs.foldl (redStep p) b).1 ∧
      (cs.foldl (redStep p) a).2 ≤ (cs.foldl (redStep p) b).2 := by
  induction cs with
  | nil => intro a b h1 h2; exact ⟨h1, h2⟩
  | cons c rest ih =>
    intro a b h1 h2
    have hs := redStep_mono p a b c h1 h2
    exact ih _ _ hs.1 hs.2

theorem foldl_redStep_mono_pred (p q : RegionCutout → Bool)
    (hpq : ∀ c, p c = true → q c = true) (cs : List RegionCutout) :
    ∀ acc : Int × Int,
      (cs.foldl (redStep p) acc).1 ≤ (cs.foldl (redStep q) acc).1 ∧
      (cs.foldl (redStep p) acc).2 ≤ (cs.foldl (redStep q) acc).2 := by
  induction cs with
  | nil => intro acc; exact ⟨le_refl _, le_refl _⟩
  | cons c rest ih =>
    intro acc
    have hstep : (redStep p acc c).1 ≤ (redStep q acc c).1 ∧
        (redStep p acc c).2 ≤ (redStep q acc c).2 := by
      unfold redStep
      by_cases hp : p c
      · have hq := hpq c hp
        simp only [hp, hq, if_pos]
        exact ⟨le_refl _, le_refl _⟩
      · by_cases hq : q c
        · simp only [hp, hq, if_pos, if_neg, Bool.false_eq_true, not_false_iff]
          cases c.side <;> simp [le_max_left]
        · simp [hp, hq]
    have h1 := ih (redStep p acc c)
    have h2 := foldl_redStep_mono_acc q rest (redStep p acc c) (redStep q acc c)
      hstep.1 hstep.2
    exact ⟨le_trans h1.1 h2.1, le_trans h1.2 h2.2⟩

theorem foldl_redStep_ub (p : RegionCutout → Bool) (cs : List RegionCutout) :
    ∀ acc : Int × Int, ∀ c ∈ cs, p c = true →
      (c.side = CutoutSide.Start → c.total_width ≤ (cs.foldl (redStep p) acc).1) ∧
      (c.side = CutoutSide.End → c.total_width ≤ (cs.foldl (redStep p) acc).2) := by
  induction cs with
  | nil => intro acc c hc; exact absurd hc (List.not_mem_nil c)
  | cons d rest ih =>
    intro acc c hc hp
    rcases List.mem_cons.mp hc with heq | hmem
    · subst heq
      constructor
      · intro hside
        have : c.total_width ≤ (redStep p acc c).1 := by
          unfold redStep; simp [hp, hside, le_max_right]
        exact le_trans this (foldl_redStep_acc_le p rest (redStep p acc c)).1
      · intro hside
        have : c.total_width ≤ (redStep p acc c).2 := by
          unfold redStep; simp [hp, hside, le_max_right]
        exact le_trans this (foldl_redStep_acc_le p rest (redStep p acc c)).2
    · exact ih (redStep p acc d) c hmem hp

theorem foldl_redStep_attained (p : RegionCutout → Bool) (cs : List RegionCutout) :
    ∀ acc : Int × Int,
      ((cs.foldl (redStep p) acc).1 = acc.1 ∨
        ∃ c ∈ cs, p c = true ∧ c.side = CutoutSide.Start ∧
          c.total_width = (cs.foldl (redStep p) acc).1) ∧
      ((cs.foldl (redStep p) acc).2 = acc.2 ∨
        ∃ c ∈ cs, p c = true ∧ c.side = CutoutSide.End ∧
          c.total_width = (cs.foldl (redStep p) acc).2) := by
  induction cs with
  | nil => intro acc; exact ⟨Or.inl rfl, Or.inl rfl⟩
  | cons c rest ih =>
    intro acc
    simp only [List.foldl_cons]
    have hrec := ih (redStep p acc c)
    constructor
    · rcases hrec.1 with heq | ⟨d, hd, hpd, hsd, htd⟩
      · by_cases hp : p c
        · cases hside : c.side with
          | Start =>
            have hstep : (redStep p acc c).1 = max acc.1 c.total_width := by
              unfold redStep; simp [hp, hside]
            rw [heq, hstep]
            rcases max_cases acc.1 c.total_width with ⟨hm, _⟩ | ⟨hm, _⟩
            · exact Or.inl hm
            · exact Or.inr ⟨c, List.mem_cons_self c rest, hp, hside, hm.symm⟩
          | End =>
            have hstep : (redStep p acc c).1 = acc.1 := by
              unfold redStep; simp [hp, hside]
            rw [heq, hstep]; exact Or.inl rfl
        · have hstep : (redStep p acc c).1 = acc.1 := by
            unfold redStep; simp [hp]
          rw [heq, hstep]; exact Or.inl rfl
      · exact Or.inr ⟨d, List.mem_cons_of_mem c hd, hpd, hsd, htd⟩
    · rcases hrec.2 with heq | ⟨d, hd, hpd, hsd, htd⟩
      · by_cases hp : p c
        · cases hside : c.side with
          | End =>
            have hstep : (redStep p acc c).2 = max acc.2 c.total_width := by
              unfold redStep; simp [hp, hside]
            rw [heq, hstep]
            rcases max_cases acc.2 c.total_width with ⟨hm, _⟩ | ⟨hm, _⟩
            · exact Or.inl hm
            · exact Or.inr ⟨c, List.mem_cons_self c rest, hp, hside, hm.symm⟩
          | Start =>
            have hstep : (redStep p acc c).2 = acc.2 := by
              unfold redStep; simp [hp, hside]
            rw [heq, hstep]; exact Or.inl rfl
        · have hstep : (redStep p acc c).2 = acc.2 := by
            unfold redStep; simp [hp]
          rw [heq, hstep]; exact Or.inl rfl
      · exact Or.inr ⟨d, List.mem_cons_of_mem c hd, hpd, hsd, htd⟩

theorem cutoutReduce_nonneg (p : RegionCutout → Bool) (cs : List RegionCutout) :
    0 ≤ (cutoutReduce p cs).1 ∧ 0 ≤ (cutoutReduce p cs).2 := by
  rw [cutoutReduce_eq_foldl]
  exact foldl_redStep_acc_le p cs (0, 0)

theorem width_at_available_eq (w y : Int) (cs : List RegionCutout) (d : Dir)
    (hne : cs ≠ []) :
    (width_at w y cs d).available =
      max (w - (cutoutReduce (fun c => c.contains_y y) cs).1 -
        (cutoutReduce (fun c => c.contains_y y) cs).2) 0 := by
  unfold width_at
  rw [if_neg (by simpa [List.isEmpty_iff] using hne)]
  cases d <;> rfl

theorem width_in_range_available_eq (w ys ye : Int) (cs : List RegionCutout) (d : Dir)
    (hne : cs ≠ []) :
    (width_in_range w ys ye cs d).available =
      max (w - (cutoutReduce (fun c => c.overlaps_range ys ye) cs).1 -
        (cutoutReduce (fun c => c.overlaps_range ys ye) cs).2) 0 := by
  unfold width_in_range
  rw [if_neg (by simpa [List.isEmpty_iff] using hne)]
  cases d <;> rfl

theorem foldl_redStep_skip (p : RegionCutout → Bool) (c : RegionCutout)
    (hc : p c = false) (l1 l2 : List RegionCutout) (acc : Int × Int) :
    (l1 ++ c :: l2).foldl (redStep p) acc = (l1 ++ l2).foldl (redStep p) acc := by
  rw [List.foldl_append, List.foldl_append, List.foldl_cons]
  have : redStep p (l1.foldl (redStep p) acc) c = l1.foldl (redStep p) acc := by
    unfold redStep
    rw [if_neg (by simp [hc])]
  rw [this]

/-- C4: for every nonnegative region width, y position, direction and cutout
list, `width_at` reduces each side by the maximum (attained or zero, and an
upper bound of every applicable cutout's total width — not the sum) over the
cutouts of that side whose vertical range contains y, and it returns
`available = max(region_width - start_reduction - end_reduction, 0)`, which
is never negative; for region width 500 and two Start cutouts active at
y = 50 with total widths 55 and 90, the available width is 500 - 90 = 410. -/
theorem c4_width_at_max_rule (w y : Int) (cs : List RegionCutout) (d : Dir)
    (hw : 0 ≤ w) :
    (width_at w y cs d).available =
      max (w - (cutoutReduce (fun c => c.contains_y y) cs).1 -
        (cutoutReduce (fun c => c.contains_y y) cs).2) 0 ∧
    0 ≤ (width_at w y cs d).available ∧
    (∀ c ∈ cs, c.contains_y y = true →
      (c.side = CutoutSide.Start →
        c.total_width ≤ (cutoutReduce (fun c => c.contains_y y) cs).1) ∧
      (c.side = CutoutSide.End →
        c.total_width ≤ (cutoutReduce (fun c => c.contains_y y) cs).2)) ∧
    ((cutoutReduce (fun c => c.contains_y y) cs).1 = 0 ∨
      ∃ c ∈ cs, c.contains_y y = true ∧ c.side = CutoutSide.Start ∧
        c.total_width = (cutoutReduce (fun c => c.contains_y y) cs).1) ∧
    ((cutoutReduce (fun c => c.contains_y y) cs).2 = 0 ∨
      ∃ c ∈ cs, c.contains_y y = true ∧ c.side = CutoutSide.End ∧
        c.total_width = (cutoutReduce (fun c => c.contains_y y) cs).2) ∧
    width_at 500 50
      [⟨0, 100, CutoutSide.Start, 50, 5⟩, ⟨0, 100, CutoutSide.Start, 80, 10⟩]
      Dir.ltr = ⟨410, 90, 0⟩ := by
  have havail : (width_at w y cs d).available =
      max (w - (cutoutReduce (fun c => c.contains_y y) cs).1 -
        (cutoutReduce (fun c => c.contains_y y) cs).2) 0 := by
    rcases List.eq_nil_or_concat cs with hnil | ⟨l, c, hcat⟩
    · subst hnil
      have : cutoutReduce (fun c => c.contains_y y) ([] : List RegionCutout) = (0, 0) := rfl
      rw [this]
      simp only [width_at, List.isEmpty_nil, if_pos, WidthInfo.full, sub_zero]
      exact (max_eq_left hw).symm
    · exact width_at_available_eq w y cs d (by simp [hcat])
  refine ⟨havail, ?_, ?_, ?_, ?_, by decide⟩
  · rw [havail]; exact le_max_right _ _
  · intro c hc hcy
    have hub := foldl_redStep_ub (fun c => c.contains_y y) cs (0, 0) c hc hcy
    rw [cutoutReduce_eq_foldl]
    exact hub
  · exact ((foldl_redStep_attained (fun c => c.contains_y y) cs (0, 0)).1).imp
      (fun h => by rw [cutoutReduce_eq_foldl]; exact h)
      (fun h => by rw [cutoutReduce_eq_foldl]; exact h)
  · exact ((foldl_redStep_attained (fun c => c.contains_y y) cs (0, 0)).2).imp
      (fun h => by rw [cutoutReduce_eq_foldl]; exact h)
      (fun h => by rw [cutoutReduce_eq_foldl]; exact h)

/-- C4 witness: the amended theorem applied at the claim's concrete input. -/
theorem c4_witness :
    (0 : Int) ≤ 500 ∧
    width_at 500 50
      [⟨0, 100, CutoutSide.Start, 50, 5⟩, ⟨0, 100, CutoutSide.Start, 80, 10⟩]
      Dir.ltr = ⟨410, 90, 0⟩ :=
  ⟨by decide,
    (c4_width_at_max_rule 500 50
      [⟨0, 100, CutoutSide.Start, 50, 5⟩, ⟨0, 100, CutoutSide.Start, 80, 10⟩]
      Dir.ltr (by decide)).2.2.2.2.2⟩

/-- C4 counterexample: with an empty cutout list the fast path of `width_at`
returns the region width unclamped, so for the (negative) region width -5 the
available width is -5, which is negative and differs from
`max(region_width - 0 - 0, 0) = 0`, refuting the claim's universal clamp for
every region width. -/
theorem c4_counterexample :
    (width_at (-5) 0 [] Dir.ltr).available = -5 ∧
    ¬ (0 ≤ (width_at (-5) 0 [] Dir.ltr).available) ∧
    (width_at (-5) 0 [] Dir.ltr).available ≠ max ((-5) - 0 - 0) 0 := by
  refine ⟨rfl, by decide, by decide⟩

/-- C5: `width_in_range` is the worst case over its range: for every y inside
the half-open range, the range query's available width is at most the point
query's, and its start and end offsets are at least the point query's. -/
theorem c5_width_in_range_worst_case (w ys ye y : Int) (cs : List RegionCutout)
    (d : Dir) (h1 : ys ≤ y) (h2 : y < ye) :
    (width_in_range w ys ye cs d).available ≤ (width_at w y cs d).available ∧
    (width_at w y cs d).start_offset ≤ (width_in_range w ys ye cs d).start_offset ∧
    (width_at w y cs d).end_offset ≤ (width_in_range w ys ye cs d).end_offset := by
  have hpq : ∀ c : RegionCutout, c.contains_y y = true →
      c.overlaps_range ys ye = true := by
    intro c hc
    simp only [RegionCutout.contains_y, Bool.and_eq_true, decide_eq_true_eq] at hc
    simp only [RegionCutout.overlaps_range, Bool.and_eq_true, decide_eq_true_eq]
    exact ⟨lt_of_le_of_lt hc.1 h2, lt_of_le_of_lt h1 hc.2⟩
  rcases List.eq_nil_or_concat cs with hnil | ⟨l, c, hcat⟩
  · subst hnil
    simp [width_at, width_in_range, WidthInfo.full]
  · have hne : cs ≠ [] := by simp [hcat]
    have hmono := foldl_redStep_mono_pred (fun c => c.contains_y y)
      (fun c => c.overlaps_range ys ye) hpq cs (0, 0)
    rw [← cutoutReduce_eq_foldl, ← cutoutReduce_eq_foldl] at hmono
    have hav : (width_in_range w ys ye cs d).available ≤ (width_at w y cs d).available := by
      rw [width_at_available_eq w y cs d hne, width_in_range_available_eq w ys ye cs d hne]
      exact max_le_max (by omega) (le_refl 0)
    refine ⟨hav, ?_, ?_⟩ <;>
    · unfold width_at width_in_range
      rw [if_neg (by simpa [List.isEmpty_iff] using hne),
        if_neg (by simpa [List.isEmpty_iff] using hne)]
      cases d <;> first
        | exact hmono.1
        | exact hmono.2

/-- C5 witness: the theorem applied at a concrete range and point. -/
theorem c5_witness :
    ((0 : Int) ≤ 50 ∧ (50 : Int) < 100) ∧
    (width_in_range 500 0 100 [⟨50, 150, CutoutSide.End, 100, 10⟩] Dir.ltr).available ≤
      (width_at 500 50 [⟨50, 150, CutoutSide.End, 100, 10⟩] Dir.ltr).available :=
  ⟨⟨by decide, by decide⟩,
    (c5_width_in_range_worst_case 500 0 100 50 [⟨50, 150, CutoutSide.End, 100, 10⟩]
      Dir.ltr (by decide) (by decide)).1⟩

/-- C6: for every nonnegative region width, appending a cutout to the cutout
list can only decrease or keep the available width computed by `width_at`. -/
theorem c6_width_at_monotone (w y : Int) (cs : List RegionCutout)
    (c : RegionCutout) (d : Dir) (hw : 0 ≤ w) :
    (width_at w y (cs ++ [c]) d).available ≤ (width_at w y cs d).available := by
  have hne2 : cs ++ [c] ≠ [] := by simp
  have hred : (cutoutReduce (fun c => c.contains_y y) cs).1 ≤
      (cutoutReduce (fun c => c.contains_y y) (cs ++ [c])).1 ∧
      (cutoutReduce (fun c => c.contains_y y) cs).2 ≤
      (cutoutReduce (fun c => c.contains_y y) (cs ++ [c])).2 := by
    rw [cutoutReduce_eq_foldl, cutoutReduce_eq_foldl, List.foldl_append,
      List.foldl_cons, List.foldl_nil]
    exact redStep_le _ _ _
  rcases List.eq_nil_or_concat cs with hnil | ⟨l, cl, hcat⟩
  · subst hnil
    have hfull : (width_at w y ([] : List RegionCutout) d).available = w := rfl
    rw [hfull, width_at_available_eq w y ([] ++ [c]) d (by simp)]
    have hnn := cutoutReduce_nonneg (fun c => c.contains_y y) ([] ++ [c])
    have : w - (cutoutReduce (fun c => c.contains_y y) ([] ++ [c])).1 -
        (cutoutReduce (fun c => c.contains_y y) ([] ++ [c])).2 ≤ w := by omega
    calc max (w - (cutoutReduce (fun c => c.contains_y y) ([] ++ [c])).1 -
          (cutoutReduce (fun c => c.contains_y y) ([] ++ [c])).2) 0
        ≤ max w 0 := max_le_max this (le_refl 0)
      _ = w := max_eq_left hw
  · have hne : cs ≠ [] := by simp [hcat]
    rw [width_at_available_eq w y cs d hne, width_at_available_eq w y (cs ++ [c]) d hne2]
    exact max_le_max (by omega) (le_refl 0)

/-- C6 witness: the theorem applied at the claim's concrete configuration. -/
theorem c6_witness :
    (0 : Int) ≤ 500 ∧
    (width_at 500 50 ([⟨0, 100, CutoutSide.Start, 50, 5⟩] ++
      [⟨0, 100, CutoutSide.Start, 80, 10⟩]) Dir.ltr).available ≤
    (width_at 500 50 [⟨0, 100, CutoutSide.Start, 50, 5⟩] Dir.ltr).available :=
  ⟨by decide,
    c6_width_at_monotone 500 50 [⟨0, 100, CutoutSide.Start, 50, 5⟩]
      ⟨0, 100, CutoutSide.Start, 80, 10⟩ Dir.ltr (by decide)⟩

/-- C6 counterexample: with a negative region width and an empty cutout list,
appending a cutout switches `width_at` from the unclamped fast path (available
-5) to the clamped path (available 0), strictly increasing the available
width and refuting monotonicity for every region width. -/
theorem c6_counterexample :
    ¬ ((width_at (-5) 0 ([] ++ [⟨0, 10, CutoutSide.Start, 1, 0⟩]) Dir.ltr).available ≤
      (width_at (-5) 0 [] Dir.ltr).available) := by
  decide

/-- C10: a zero-height cutout contains no y position, so for every
nonnegative region width a point query returns the same result with or
without it; yet `overlaps_range` reports it for every range straddling its y
position, so a range query can be strictly narrower than the point query at
every y of the range, as the concrete zero-height cutout at y = 50 with total
width 100 shows (range available 400 versus point available 500 at every y in
[0, 100)). -/
theorem c10_zero_height_cutout (c : RegionCutout) (hzero : c.y_start = c.y_end)
    (w y : Int) (cs1 cs2 : List RegionCutout) (d : Dir) (hw : 0 ≤ w) :
    (∀ yy : Int, c.contains_y yy = false) ∧
    width_at w y (cs1 ++ c :: cs2) d = width_at w y (cs1 ++ cs2) d ∧
    (∀ a b : Int, a < c.y_start → c.y_start < b → c.overlaps_range a b = true) ∧
    width_in_range 500 0 100 [⟨50, 50, CutoutSide.Start, 100, 0⟩] Dir.ltr =
      ⟨400, 100, 0⟩ ∧
    (∀ yy : Int, 0 ≤ yy → yy < 100 →
      (width_at 500 yy [⟨50, 50, CutoutSide.Start, 100, 0⟩] Dir.ltr).available = 500 ∧
      (400 : Int) < 500) := by
  have hcont : ∀ yy : Int, c.contains_y yy = false := by
    intro yy
    simp only [RegionCutout.contains_y, Bool.and_eq_false_iff, decide_eq_false_iff_not,
      not_le, not_lt]
    omega
  have hconcrete : ∀ yy : Int,
      (RegionCutout.contains_y ⟨50, 50, CutoutSide.Start, 100, 0⟩ yy) = false := by
    intro yy
    simp only [RegionCutout.contains_y, Bool.and_eq_false_iff, decide_eq_false_iff_not,
      not_le, not_lt]
    omega
  refine ⟨hcont, ?_, ?_, by decide, ?_⟩
  · rcases List.eq_nil_or_concat (cs1 ++ cs2) with hnil | ⟨l, cl, hcat⟩
    · have h1 : cs1 = [] := by
        cases cs1 with
        | nil => rfl
        | cons a t => simp at hnil
      have h2 : cs2 = [] := by
        cases cs2 with
        | nil => rfl
        | cons a t => subst h1; simp at hnil
      subst h1; subst h2
      have hred : cutoutReduce (fun cc => cc.contains_y y) [c] = (0, 0) := by
        rw [cutoutReduce_eq_foldl]
        simp only [List.foldl_cons, List.foldl_nil]
        unfold redStep
        rw [if_neg (by simp [hcont y])]
      show width_at w y [c] d = width_at w y [] d
      have hrhs : width_at w y ([] : List RegionCutout) d = WidthInfo.full w := rfl
      rw [hrhs]
      unfold width_at
      rw [if_neg (by simp)]
      rw [hred]
      have hav : max (w - (0 : Int) - 0) 0 = w := by omega
      cases d <;> simp only [] <;> rw [hav] <;> rfl
    · have hne : cs1 ++ cs2 ≠ [] := by simp [hcat]
      have hne2 : (cs1 ++ c :: cs2).isEmpty = false := by
        cases cs1 <;> simp
      have hred : cutoutReduce (fun cc => cc.contains_y y) (cs1 ++ c :: cs2) =
          cutoutReduce (fun cc => cc.contains_y y) (cs1 ++ cs2) := by
        rw [cutoutReduce_eq_foldl, cutoutReduce_eq_foldl]
        exact foldl_redStep_skip _ c (hcont y) cs1 cs2 (0, 0)
      unfold width_at
      rw [if_neg (by simp [hne2]),
        if_neg (by simpa [List.isEmpty_iff] using hne)]
      rw [hred]
  · intro a b ha hb
    simp only [RegionCutout.overlaps_range, Bool.and_eq_true, decide_eq_true_eq]
    omega
  · intro yy h0 h100
    refine ⟨?_, by decide⟩
    have hred : cutoutReduce (fun cc => cc.contains_y yy)
        [(⟨50, 50, CutoutSide.Start, 100, 0⟩ : RegionCutout)] = (0, 0) := by
      rw [cutoutReduce_eq_foldl]
      simp only [List.foldl_cons, List.foldl_nil]
      unfold redStep
      rw [if_neg (by simp [hconcrete yy])]
    rw [width_at_available_eq 500 yy _ Dir.ltr (by simp), hred]
    decide

/-- C10 witness: the theorem applied to the concrete zero-height cutout,
region width 500, insertion next to one ordinary cutout. -/
theorem c10_witness :
    (RegionCutout.y_start ⟨50, 50, CutoutSide.Start, 100, 0⟩ =
      RegionCutout.y_end ⟨50, 50, CutoutSide.Start, 100, 0⟩) ∧
    (0 : Int) ≤ 500 ∧
    width_at 500 0
      ([] ++ (⟨50, 50, CutoutSide.Start, 100, 0⟩ : RegionCutout) ::
        [⟨0, 100, CutoutSide.End, 80, 20⟩]) Dir.ltr =
    width_at 500 0 ([] ++ [⟨0, 100, CutoutSide.End, 80, 20⟩]) Dir.ltr :=
  ⟨rfl, by decide,
    (c10_zero_height_cutout ⟨50, 50, CutoutSide.Start, 100, 0⟩ rfl 500 0 []
      [⟨0, 100, CutoutSide.End, 80, 20⟩] Dir.ltr (by decide)).2.1⟩

/-- C10 counterexample: with negative region width -5 and no other cutouts,
inserting the zero-height cutout changes the result of `width_at` (the
clamped path returns 0 while the fast path returns -5), refuting the claim's
"same result with or without it" for every configuration. -/
theorem c10_counterexample :
    width_at (-5) 0 ([] ++ (⟨50, 50, CutoutSide.Start, 100, 0⟩ : RegionCutout) :: []) Dir.ltr ≠
      width_at (-5) 0 ([] ++ []) Dir.ltr := by
  decide

theorem keepWeakRelAux_seps (a : Int) (w : Nat) :
    ∀ seps : List Item, (∀ it ∈ seps, PeekSep it) → ∀ rest : List Item,
      keepWeakRelAux a w (seps ++ rest) =
        ⟨(keepWeakRelAux a w rest).keep, seps ++ (keepWeakRelAux a w rest).items,
          (keepWeakRelAux a w rest).delta⟩ := by
  intro seps
  induction seps with
  | nil =>
    intro _ rest
    simp
  | cons it tl ih =>
    intro hsep rest
    have hit := hsep it (List.mem_cons_self it tl)
    have htl : ∀ x ∈ tl, PeekSep x := fun x hx => hsep x (List.mem_cons_of_mem it hx)
    rcases hit with ⟨t, rfl⟩ | rfl | ⟨f, p, rfl, hfl⟩
    · simp only [List.cons_append, keepWeakRelAux, List.append_eq]
      rw [ih htl rest]
    · simp only [List.cons_append, keepWeakRelAux, List.append_eq]
      rw [if_neg (by omega)]
      rw [ih htl rest]
    · simp only [List.cons_append, keepWeakRelAux, List.append_eq]
      rw [ih htl rest]

theorem rel_after_frame (st : DState) (base seps : List Item) (f : Frame)
    (al : AxesAlign) (a : Int) (w : Nat)
    (hsep : ∀ it ∈ seps, PeekSep it) (hw : 1 ≤ w)
    (hitems : st.items = base ++ Item.Frame f al :: seps) :
    rel st a w = { st with
      items := st.items ++ [Item.Abs a w],
      sizeY := st.sizeY - a } := by
  have hrev : st.items.reverse = seps.reverse ++ (Item.Frame f al :: base.reverse) := by
    rw [hitems]
    simp
  have hsc : keepWeakRelAux a w st.items.reverse =
      ⟨true, st.items.reverse, 0⟩ := by
    rw [hrev]
    rw [keepWeakRelAux_seps a w seps.reverse
      (fun it hx => hsep it (List.mem_reverse.mp hx)) _]
    rfl
  unfold rel keepWeakRelSpacing
  rw [if_pos (by omega)]
  rw [hsc]
  simp

theorem rel_onto_weak_abs (st : DState) (pre : List Item) (pa : Int) (pw : Nat)
    (a : Int) (w : Nat) (hpw : 1 ≤ pw) (hw : 1 ≤ w)
    (hitems : st.items = pre ++ [Item.Abs pa pw]) :
    rel st a w =
      if w ≤ pw ∧ (w < pw ∨ pa < a) then
        { st with items := pre ++ [Item.Abs a w], sizeY := st.sizeY - (a - pa) }
      else st := by
  have hrev : st.items.reverse = Item.Abs pa pw :: pre.reverse := by
    rw [hitems]; simp
  unfold rel keepWeakRelSpacing
  rw [if_pos (by omega : 0 < w)]
  rw [hrev]
  unfold keepWeakRelAux
  rw [if_pos hpw]
  by_cases hcond : w ≤ pw ∧ (w < pw ∨ pa < a)
  · rw [if_pos hcond, if_pos hcond]
    simp
  · rw [if_neg hcond, if_neg hcond]
    simp only []
    rw [← hrev]
    simp

theorem rel_discard_at_start (st : DState) (a : Int) (w : Nat)
    (hsep : ∀ it ∈ st.items, PeekSep it) (hw : 1 ≤ w) :
    rel st a w = st := by
  have hsc : keepWeakRelAux a w st.items.reverse =
      ⟨false, st.items.reverse, 0⟩ := by
    have := keepWeakRelAux_seps a w st.items.reverse
      (fun it hx => hsep it (List.mem_reverse.mp hx)) []
    simpa [keepWeakRelAux] using this
  unfold rel keepWeakRelSpacing
  rw [if_pos (by omega : 0 < w)]
  rw [hsc]
  simp

/-- C1 (amended): a pair of weak relative spacings of equal weakness `w ≥ 1`
following a frame (possibly separated by tags, strong zero-amount spacing or
non-floating placed items) collapses to exactly one absolute item whose
amount is the maximum of the two, consuming exactly that maximum of region
height; when the second spacing is strictly weaker, the earlier item
survives unchanged (its amount is kept, not the maximum); and a weak pair
not preceded by any frame or fractional-block item is discarded entirely,
producing no item and consuming no height. -/
theorem c1_weak_rel_collapse (st : DState) (base seps : List Item) (f : Frame)
    (al : AxesAlign) (a b : Int) (w w2 : Nat)
    (hsep : ∀ it ∈ seps, PeekSep it) (hw : 1 ≤ w) (hw2 : 1 ≤ w2)
    (hitems : st.items = base ++ Item.Frame f al :: seps) :
    ((rel (rel st a w) b w).items =
        base ++ Item.Frame f al :: (seps ++ [Item.Abs (max a b) w]) ∧
      (rel (rel st a w) b w).sizeY = st.sizeY - max a b) ∧
    (w < w2 →
      rel (rel st a w) b w2 = rel st a w ∧
      (rel st a w).items = base ++ Item.Frame f al :: (seps ++ [Item.Abs a w]) ∧
      (rel st a w).sizeY = st.sizeY - a) ∧
    (∀ st2 : DState, (∀ it ∈ st2.items, PeekSep it) →
      rel (rel st2 a w) b w2 = st2) := by
  have hst1 := rel_after_frame st base seps f al a w hsep hw hitems
  have hst1items : (rel st a w).items =
      (base ++ Item.Frame f al :: seps) ++ [Item.Abs a w] := by
    rw [hst1]; simp only [hitems]
  have hst1size : (rel st a w).sizeY = st.sizeY - a := by rw [hst1]
  refine ⟨?_, ?_, ?_⟩
  · have hp := rel_onto_weak_abs (rel st a w) (base ++ Item.Frame f al :: seps)
      a w b w hw hw hst1items
    by_cases hab : a < b
    · have hcond : w ≤ w ∧ (w < w ∨ a < b) := ⟨le_refl w, Or.inr hab⟩
      have hmax : max a b = b := max_eq_right (le_of_lt hab)
      rw [hp, if_pos hcond]
      constructor
      · simp [hmax]
      · simp only [hst1size, hmax]
        omega
    · have hcond : ¬ (w ≤ w ∧ (w < w ∨ a < b)) := by
        intro h
        rcases h.2 with h2 | h2
        · omega
        · exact hab h2
      rw [hp, if_neg hcond]
      have hmax : max a b = a := max_eq_left (by omega)
      constructor
      · rw [hst1items, hmax]; simp
      · rw [hst1size, hmax]
  · intro hlt
    have hp := rel_onto_weak_abs (rel st a w) (base ++ Item.Frame f al :: seps)
      a w b w2 hw hw2 hst1items
    have hcond : ¬ (w2 ≤ w ∧ (w2 < w ∨ a < b)) := by
      intro h
      omega
    refine ⟨by rw [hp, if_neg hcond], ?_, hst1size⟩
    rw [hst1items]; simp
  · intro st2 hsep2
    rw [rel_discard_at_start st2 a w hsep2 hw,
      rel_discard_at_start st2 b w2 hsep2 hw2]

/-- C1 witness: the amended theorem applied to the claim's concrete pair
V(12pt, weak) and V(20pt, weak) placed after a frame of height 10 in a
region of height 100. -/
theorem c1_witness :
    ((rel (rel ⟨[Item.Frame ⟨10, false⟩ ⟨FixedAlignment.Start, FixedAlignment.Start⟩],
        100, [], none, [], none, 0, none, none⟩ 12 1) 20 1).items =
      [] ++ Item.Frame ⟨10, false⟩ ⟨FixedAlignment.Start, FixedAlignment.Start⟩ ::
        ([] ++ [Item.Abs (max 12 20) 1]) ∧
    (rel (rel ⟨[Item.Frame ⟨10, false⟩ ⟨FixedAlignment.Start, FixedAlignment.Start⟩],
        100, [], none, [], none, 0, none, none⟩ 12 1) 20 1).sizeY = 100 - max 12 20) :=
  (c1_weak_rel_collapse
    ⟨[Item.Frame ⟨10, false⟩ ⟨FixedAlignment.Start, FixedAlignment.Start⟩],
      100, [], none, [], none, 0, none, none⟩
    [] [] ⟨10, false⟩ ⟨FixedAlignment.Start, FixedAlignment.Start⟩ 12 20 1 1
    (fun it h => absurd h (List.not_mem_nil it)) (by decide) (by decide) rfl).1

/-- C1 counterexample: the claim's literal input V(12pt, weak), V(20pt, weak)
at the start of a region produces no item at all and consumes no height (the
scan finds no supporting frame and discards both), not one Rel(20pt, 1)
consuming 20pt; and for weaknesses 1 then 2 (so w ≤ w' with w < w') the pair
Rel(5pt, 1), Rel(10pt, 2) materializes as the single item Abs(5, 1), whose
amount 5 is not max(5, 10). -/
theorem c1_counterexample :
    ((rel (rel ⟨[], 100, [], none, [], none, 0, none, none⟩ 12 1) 20 1).items = [] ∧
     (rel (rel ⟨[], 100, [], none, [], none, 0, none, none⟩ 12 1) 20 1).sizeY = 100) ∧
    ((rel (rel ⟨[Item.Frame ⟨10, false⟩ ⟨FixedAlignment.Start, FixedAlignment.Start⟩],
        100, [], none, [], none, 0, none, none⟩ 5 1) 10 2).items =
      [Item.Frame ⟨10, false⟩ ⟨FixedAlignment.Start, FixedAlignment.Start⟩,
        Item.Abs 5 1] ∧
     (5 : Int) ≠ max 5 10) :=
  ⟨⟨rfl, rfl⟩, ⟨rfl, by decide⟩⟩

theorem keepWeakRelAux_no_support (a : Int) (w : Nat) :
    ∀ l : List Item, (∀ it ∈ l, isFrameItem it = false ∧ isFrItem it = false) →
      (keepWeakRelAux a w l).keep = false ∧
      (keepWeakRelAux a w l).items.length = l.length ∧
      (∀ it ∈ (keepWeakRelAux a w l).items,
        isFrameItem it = false ∧ isFrItem it = false) := by
  intro l
  induction l with
  | nil =>
    intro _
    exact ⟨rfl, rfl, fun it h => absurd h (List.not_mem_nil it)⟩
  | cons hd tl ih =>
    intro hno
    have hhd := hno hd (List.mem_cons_self hd tl)
    have htl : ∀ it ∈ tl, isFrameItem it = false ∧ isFrItem it = false :=
      fun it h => hno it (List.mem_cons_of_mem hd h)
    have ihtl := ih htl
    cases hd with
    | Tag t =>
      simp only [keepWeakRelAux]
      refine ⟨ihtl.1, by simp [ihtl.2.1], ?_⟩
      intro it h
      rcases List.mem_cons.mp h with rfl | h2
      · exact ⟨rfl, rfl⟩
      · exact ihtl.2.2 it h2
    | Abs pa pw =>
      by_cases hpw : 1 ≤ pw
      · simp only [keepWeakRelAux, if_pos hpw]
        by_cases hcond : w ≤ pw ∧ (w < pw ∨ pa < a)
        · rw [if_pos hcond]
          refine ⟨rfl, by simp, ?_⟩
          intro it h
          rcases List.mem_cons.mp h with rfl | h2
          · exact ⟨rfl, rfl⟩
          · exact htl it h2
        · rw [if_neg hcond]
          refine ⟨rfl, by simp, ?_⟩
          intro it h
          rcases List.mem_cons.mp h with rfl | h2
          · exact ⟨rfl, rfl⟩
          · exact htl it h2
      · simp only [keepWeakRelAux, if_neg hpw]
        refine ⟨ihtl.1, by simp [ihtl.2.1], ?_⟩
        intro it h
        rcases List.mem_cons.mp h with rfl | h2
        · exact ⟨rfl, rfl⟩
        · exact ihtl.2.2 it h2
    | Placed fm p =>
      simp only [keepWeakRelAux]
      refine ⟨ihtl.1, by simp [ihtl.2.1], ?_⟩
      intro it h
      rcases List.mem_cons.mp h with rfl | h2
      · exact ⟨rfl, rfl⟩
      · exact ihtl.2.2 it h2
    | Fr pf pw blk =>
      exact absurd hhd.2 (by cases blk <;> simp [isFrItem])
    | Frame fm alg =>
      exact absurd hhd.1 (by simp [isFrameItem])

theorem keepWeakFrAux_no_support (f : Int) (w : Nat) :
    ∀ l : List Item, (∀ it ∈ l, isFrameItem it = false ∧ isFrItem it = false) →
      keepWeakFrAux f w l = (false, l) := by
  intro l
  induction l with
  | nil => intro _; rfl
  | cons hd tl ih =>
    intro hno
    have hhd := hno hd (List.mem_cons_self hd tl)
    have htl : ∀ it ∈ tl, isFrameItem it = false ∧ isFrItem it = false :=
      fun it h => hno it (List.mem_cons_of_mem hd h)
    cases hd with
    | Tag t => simp [keepWeakFrAux, ih htl]
    | Abs pa pw => simp [keepWeakFrAux, ih htl]
    | Placed fm p => simp [keepWeakFrAux, ih htl]
    | Fr pf pw blk =>
      exact absurd hhd.2 (by cases blk <;> simp [isFrItem])
    | Frame fm alg =>
      exact absurd hhd.1 (by simp [isFrameItem])

/-- C8: a weak spacing child processed while the item vector contains no
frame item and no fractional item never appends a new item: weak relative
spacing preserves the number of items (it is discarded or merged into an
earlier weak absolute item in place) and keeps the item vector free of frame
and fractional items, and weak fractional spacing leaves the state entirely
unchanged. -/
theorem c8_weak_spacing_no_append (st : DState) (a g : Int) (w w2 : Nat)
    (hno : ∀ it ∈ st.items, isFrameItem it = false ∧ isFrItem it = false)
    (hw : 1 ≤ w) (hw2 : 1 ≤ w2) :
    (rel st a w).items.length = st.items.length ∧
    (∀ it ∈ (rel st a w).items, isFrameItem it = false ∧ isFrItem it = false) ∧
    fr st g w2 = st := by
  have hrev : ∀ it ∈ st.items.reverse, isFrameItem it = false ∧ isFrItem it = false :=
    fun it h => hno it (List.mem_reverse.mp h)
  have hscan := keepWeakRelAux_no_support a w st.items.reverse hrev
  constructor
  · unfold rel keepWeakRelSpacing
    rw [if_pos (by omega : 0 < w)]
    simp only [hscan.1, if_neg (Bool.false_ne_true)]
    simp [hscan.2.1]
  constructor
  · unfold rel keepWeakRelSpacing
    rw [if_pos (by omega : 0 < w)]
    simp only [hscan.1, if_neg (Bool.false_ne_true)]
    intro it h
    simp only [List.mem_reverse] at h
    exact hscan.2.2 it h
  · unfold fr keepWeakFrSpacing
    rw [if_pos (by omega : 0 < w2)]
    rw [keepWeakFrAux_no_support g w2 st.items.reverse hrev]
    simp

/-- C8 witness: the theorem applied at a state holding a tag and a weak
absolute spacing item but no frame and no fractional item. -/
theorem c8_witness :
    (rel ⟨[Item.Tag 0, Item.Abs 3 1], 50, [], none, [], none, 0, none, none⟩
      5 1).items.length = 2 ∧
    fr ⟨[Item.Tag 0, Item.Abs 3 1], 50, [], none, [], none, 0, none, none⟩ 2 1 =
      ⟨[Item.Tag 0, Item.Abs 3 1], 50, [], none, [], none, 0, none, none⟩ :=
  have h := c8_weak_spacing_no_append
    ⟨[Item.Tag 0, Item.Abs 3 1], 50, [], none, [], none, 0, none, none⟩ 5 2 1 1
    (by decide) (by decide) (by decide)
  ⟨h.1, h.2.2⟩

theorem lineNeedsOf_collectLinesGo (align : AxesAlign) (leading : Int)
    (pA pO pW : Bool) (f1 f2 b2 b1 : Int) (len : Nat) :
    ∀ (fs : List Frame) (j k : Nat),
      (lineNeedsOf
        (collectLinesGo align leading pA pO pW f1 f2 b2 b1 len fs j)).get? k =
        (fs.get? k).map
          (fun f => needFor pA pO pW f1 f2 b2 b1 leading len (j + k) f.height) := by
  intro fs
  induction fs with
  | nil =>
    intro j k
    simp [collectLinesGo, lineNeedsOf]
  | cons f rest ih =>
    intro j k
    have hgo : lineNeedsOf
        (collectLinesGo align leading pA pO pW f1 f2 b2 b1 len (f :: rest) j) =
        needFor pA pO pW f1 f2 b2 b1 leading len j f.height ::
          lineNeedsOf
            (collectLinesGo align leading pA pO pW f1 f2 b2 b1 len rest (j + 1)) := by
      by_cases hj : 0 < j
      · simp [collectLinesGo, lineNeedsOf, hj]
      · simp [collectLinesGo, lineNeedsOf, hj]
    rw [hgo]
    cases k with
    | zero => simp
    | succ k2 =>
      simp only [List.get?_cons_succ]
      rw [ih (j + 1) k2]
      have harith : j + 1 + k2 = j + (k2 + 1) := by omega
      rw [harith]

/-- C2: the `need` values carried by the emitted `Line` children follow the
claimed case analysis: line 0 needs all three lines when the paragraph has
exactly three lines and both preventions are active; line 0 needs the first
two lines when orphan prevention alone applies; the line `i` with `i ≥ 2`
and `i + 2 = len` needs the last two lines under widow prevention; every
other line needs its own height. Concretely, three lines of height 10 with
leading 2 and positive costs give line 0 a need of 10+2+10+2+10 = 34, and in
a region of height 26 with a follow-up region of height 1000 the
deferred-paragraph distribution emits nothing and parks all three lines as
the paragraph spill. -/
theorem c2_line_need (frames : List Frame) (leading : Int) (align : AxesAlign)
    (costs : Costs) :
    (preventAllFlag frames costs = true → ∀ f0, frames.get? 0 = some f0 →
      (lineNeedsOf (collectLines frames leading align costs)).get? 0 =
        some (heightAt frames 0 + leading + heightAt frames 1 + leading +
          heightAt frames (frames.length - 1))) ∧
    (preventOrphansFlag frames costs = true →
      preventWidowsFlag frames costs = false →
      ∀ f0, frames.get? 0 = some f0 →
      (lineNeedsOf (collectLines frames leading align costs)).get? 0 =
        some (heightAt frames 0 + leading + heightAt frames 1)) ∧
    (∀ i fi, preventWidowsFlag frames costs = true → 2 ≤ i →
      i + 2 = frames.length → frames.get? i = some fi →
      (lineNeedsOf (collectLines frames leading align costs)).get? i =
        some (heightAt frames (frames.length - 2) + leading +
          heightAt frames (frames.length - 1))) ∧
    (∀ i fi, frames.get? i = some fi →
      ¬(i = 0 ∧ preventAllFlag frames costs = true) →
      ¬(i = 0 ∧ preventOrphansFlag frames costs = true) →
      ¬(2 ≤ i ∧ i + 2 = frames.length ∧ preventWidowsFlag frames costs = true) →
      (lineNeedsOf (collectLines frames leading align costs)).get? i =
        some fi.height) ∧
    ((lineNeedsOf (collectLines [⟨10, false⟩, ⟨10, false⟩, ⟨10, false⟩] 2 align
        ⟨1, 1⟩)).get? 0 = some 34 ∧
      (processParLines ⟨[], 26, [1000], none, [], none, 0, none, none⟩
        [⟨10, false⟩, ⟨10, false⟩, ⟨10, false⟩] align 2 ⟨1, 1⟩ 0 false none 0).2 =
        Ctl.finish false ∧
      (processParLines ⟨[], 26, [1000], none, [], none, 0, none, none⟩
        [⟨10, false⟩, ⟨10, false⟩, ⟨10, false⟩] align 2 ⟨1, 1⟩ 0 false none 0).1.items =
        [] ∧
      ((processParLines ⟨[], 26, [1000], none, [], none, 0, none, none⟩
        [⟨10, false⟩, ⟨10, false⟩, ⟨10, false⟩] align 2 ⟨1, 1⟩ 0 false none
        0).1.parSpillSlot.map
          (fun rec => (rec.frames.length, rec.lines_placed))) = some (3, 0)) := by
  have hget : ∀ k : Nat,
      (lineNeedsOf (collectLines frames leading align costs)).get? k =
        (frames.get? k).map
          (fun f => needFor (preventAllFlag frames costs)
            (preventOrphansFlag frames costs) (preventWidowsFlag frames costs)
            (heightAt frames 0) (heightAt frames 1)
            (heightAt frames (frames.length - 2))
            (heightAt frames (frames.length - 1)) leading frames.length
            (0 + k) f.height) := by
    intro k
    exact lineNeedsOf_collectLinesGo align leading _ _ _ _ _ _ _ _ frames 0 k
  refine ⟨?_, ?_, ?_, ?_, rfl, rfl, rfl, rfl⟩
  · intro hA f0 hf0
    rw [hget 0, hf0]
    simp [needFor, hA]
  · intro hO hW f0 hf0
    have hA : preventAllFlag frames costs = false := by
      unfold preventAllFlag
      rw [hW]
      simp
    rw [hget 0, hf0]
    simp [needFor, hA, hO]
  · intro i fi hW h2 hlen hfi
    rw [hget i, hfi]
    have hi0 : ¬ (i = 0) := by omega
    simp [needFor, hW, hi0, h2, hlen]
  · intro i fi hfi hnA hnO hnW
    rw [hget i, hfi]
    have c1f : (preventAllFlag frames costs && decide (i = 0)) = false := by
      by_cases hi : i = 0
      · have hflag : preventAllFlag frames costs = false := by
          by_contra hcon
          exact hnA ⟨hi, by revert hcon; cases preventAllFlag frames costs <;> simp⟩
        simp [hflag]
      · simp [hi]
    have c2f : (preventOrphansFlag frames costs && decide (i = 0)) = false := by
      by_cases hi : i = 0
      · have hflag : preventOrphansFlag frames costs = false := by
          by_contra hcon
          exact hnO ⟨hi, by revert hcon; cases preventOrphansFlag frames costs <;> simp⟩
        simp [hflag]
      · simp [hi]
    have c3f : (preventWidowsFlag frames costs && decide (2 ≤ i) &&
        decide (i + 2 = frames.length)) = false := by
      by_cases h2i : 2 ≤ i
      · by_cases hl : i + 2 = frames.length
        · have hflag : preventWidowsFlag frames costs = false := by
            by_contra hcon
            refine hnW ⟨h2i, hl, ?_⟩
            revert hcon
            cases preventWidowsFlag frames costs <;> simp
          simp [hflag]
        · simp [hl]
      · simp [h2i]
    simp [needFor, c1f, c2f, c3f]

/-- C2 witness: the theorem's first case applied to the claim's concrete
three-line paragraph. -/
theorem c2_witness :
    preventAllFlag [⟨10, false⟩, ⟨10, false⟩, ⟨10, false⟩] ⟨1, 1⟩ = true ∧
    (lineNeedsOf (collectLines [⟨10, false⟩, ⟨10, false⟩, ⟨10, false⟩] 2
      ⟨FixedAlignment.Start, FixedAlignment.Start⟩ ⟨1, 1⟩)).get? 0 =
      some (heightAt [⟨10, false⟩, ⟨10, false⟩, ⟨10, false⟩] 0 + 2 +
        heightAt [⟨10, false⟩, ⟨10, false⟩, ⟨10, false⟩] 1 + 2 +
        heightAt [⟨10, false⟩, ⟨10, false⟩, ⟨10, false⟩]
          (([⟨10, false⟩, ⟨10, false⟩, ⟨10, false⟩] : List Frame).length - 1)) :=
  ⟨by decide,
    (c2_line_need [⟨10, false⟩, ⟨10, false⟩, ⟨10, false⟩] 2
      ⟨FixedAlignment.Start, FixedAlignment.Start⟩ ⟨1, 1⟩).1 (by decide)
      ⟨10, false⟩ rfl⟩

theorem rel_parSpillSlot (st : DState) (a : Int) (w : Nat) :
    (rel st a w).parSpillSlot = st.parSpillSlot := by
  unfold rel keepWeakRelSpacing
  by_cases hw : 0 < w
  · rw [if_pos hw]
    cases hk : (keepWeakRelAux a w st.items.reverse).keep <;> simp [hk]
  · rw [if_neg hw]

theorem frameStep_parSpillSlot (st : DState) (f : Frame) (align : AxesAlign)
    (sticky breakable : Bool) :
    (frameStep st f align sticky breakable).parSpillSlot = st.parSpillSlot := by
  obtain ⟨it, sz, bk, ls, tg, sl, ad, stk, stb⟩ := st
  cases sticky <;> cases stk <;> cases stb <;>
    simp [frameStep, flushTags] <;> split_ifs <;> rfl

theorem parLinesGo_slot (align : AxesAlign) (leading : Int) (costs : Costs)
    (spacing : Int) (adv : Bool) (P : Option ParChild) (lpb : Nat)
    (pA pO pW : Bool) (f1 f2 b2 b1 : Int) (len : Nat) :
    ∀ (fs : List Frame) (st : DState) (i : Nat) (rec : ParSpillRec),
      (parLinesGo align leading costs spacing adv P lpb pA pO pW f1 f2 b2 b1
        len st fs i).1.parSpillSlot = some rec →
      st.parSpillSlot = some rec ∨ rec.par = P := by
  intro fs
  induction fs with
  | nil =>
    intro st i rec h
    simp only [parLinesGo] at h
    left
    rw [← rel_parSpillSlot st spacing 4]
    exact h
  | cons f rest ih =>
    intro st i rec h
    simp only [parLinesGo] at h
    split at h
    all_goals split at h
    all_goals
      first
      | (split at h <;>
          (right
           have hrec := Option.some.inj h
           rw [← hrec]))
      | (split at h
         · split at h <;>
             (right
              have hrec := Option.some.inj h
              rw [← hrec])
         · rcases ih _ _ rec h with hleft | hright
           · left
             rw [frameStep_parSpillSlot _ f align false false] at hleft
             first
               | (rw [rel_parSpillSlot] at hleft
                  exact hleft)
               | exact hleft
           · right
             exact hright)

/-- C3: on every resumption of a paragraph spill into a non-full region, if
the spill carries the paragraph back-reference (stored exactly when the
original layout had cutouts) and the current region's cutout list is empty,
the paragraph is re-laid at full width (the layouter is invoked with the
empty cutout list) and the first `lines_placed` lines of the result are
skipped, emitting only the remainder; otherwise the stored pre-laid frames
are reused unchanged; a full region re-parks the spill untouched. The
back-reference invariant: a fresh paragraph stores `some par` in any spill
it creates exactly when the cutout list was nonempty. -/
theorem c3_par_spill_relayout (st : DState) (spill : ParSpillRec)
    (cutouts : List RegionCutout) (p : ParChild) :
    (isFull st = true →
      parSpillStep st spill cutouts =
        ({ st with parSpillSlot := some spill }, Ctl.finish false)) ∧
    (isFull st = false → spill.par = some p → cutouts = [] →
      parSpillStep st spill cutouts =
        processParLines st
          ((p.layoutFn [] (currentY st)).drop spill.lines_placed)
          spill.align spill.leading spill.costs spill.spacing false none
          spill.lines_placed) ∧
    (isFull st = false → (spill.par = none ∨ cutouts ≠ []) →
      parSpillStep st spill cutouts =
        processParLines st spill.frames spill.align spill.leading spill.costs
          spill.spacing false spill.par spill.lines_placed) ∧
    (∀ q : ParChild, st.parSpillSlot = none →
      ∀ rec, (parStep st q cutouts).1.parSpillSlot = some rec →
        rec.par = (if cutouts.isEmpty then none else some q)) := by
  refine ⟨?_, ?_, ?_, ?_⟩
  · intro hfull
    unfold parSpillStep
    rw [if_pos hfull]
  · intro hfull hpar hcut
    subst hcut
    obtain ⟨sfs, sal, sld, scs, ssp, spr, slp⟩ := spill
    simp only [] at hpar
    subst hpar
    unfold parSpillStep
    rw [if_neg (by simp [hfull])]
    rfl
  · intro hfull hor
    obtain ⟨sfs, sal, sld, scs, ssp, spr, slp⟩ := spill
    unfold parSpillStep
    rw [if_neg (by simp [hfull])]
    rcases hor with hnone | hne
    · simp only [] at hnone
      subst hnone
      cases cutouts <;> rfl
    · have hie : cutouts.isEmpty = false := by
        cases cutouts with
        | nil => exact absurd rfl hne
        | cons c t => rfl
      rw [hie]
      cases spr <;> rfl
  · intro q hslot rec h
    unfold parStep processParLines at h
    rcases parLinesGo_slot q.align q.leading q.costs q.spacing true
      (if !cutouts.isEmpty then some q else none) 0 _ _ _ _ _ _ _ _
      (q.layoutFn cutouts (currentY st)) (rel st q.spacing 4) 0 rec h with
      hleft | hright
    · rw [rel_parSpillSlot st q.spacing 4] at hleft
      rw [hslot] at hleft
      exact absurd hleft (by simp)
    · rw [hright]
      cases cutouts <;> rfl

/-- C3 witness: the re-layout branch applied concretely: a spill with three
lines already placed and a stored back-reference, resumed with no cutouts in
a region of height 100, equals re-laying via the stored paragraph and
skipping its first three lines. -/
theorem c3_witness :
    isFull ⟨[], 100, [], none, [], none, 0, none, none⟩ = false ∧
    parSpillStep ⟨[], 100, [], none, [], none, 0, none, none⟩
      ⟨[⟨10, false⟩], ⟨FixedAlignment.Start, FixedAlignment.Start⟩, 2, ⟨1, 1⟩, 3,
        some ⟨3, 2, ⟨FixedAlignment.Start, FixedAlignment.Start⟩, ⟨1, 1⟩,
          fun _ _ => [⟨10, false⟩, ⟨10, false⟩, ⟨10, false⟩, ⟨10, false⟩]⟩, 3⟩ [] =
      processParLines ⟨[], 100, [], none, [], none, 0, none, none⟩
        ((ParChild.layoutFn ⟨3, 2, ⟨FixedAlignment.Start, FixedAlignment.Start⟩,
          ⟨1, 1⟩, fun _ _ => [⟨10, false⟩, ⟨10, false⟩, ⟨10, false⟩, ⟨10, false⟩]⟩
          [] (currentY ⟨[], 100, [], none, [], none, 0, none, none⟩)).drop 3)
        ⟨FixedAlignment.Start, FixedAlignment.Start⟩ 2 ⟨1, 1⟩ 3 false none 3 :=
  ⟨rfl,
    (c3_par_spill_relayout ⟨[], 100, [], none, [], none, 0, none, none⟩
      ⟨[⟨10, false⟩], ⟨FixedAlignment.Start, FixedAlignment.Start⟩, 2, ⟨1, 1⟩, 3,
        some ⟨3, 2, ⟨FixedAlignment.Start, FixedAlignment.Start⟩, ⟨1, 1⟩,
          fun _ _ => [⟨10, false⟩, ⟨10, false⟩, ⟨10, false⟩, ⟨10, false⟩]⟩, 3⟩ []
      ⟨3, 2, ⟨FixedAlignment.Start, FixedAlignment.Start⟩, ⟨1, 1⟩,
        fun _ _ => [⟨10, false⟩, ⟨10, false⟩, ⟨10, false⟩, ⟨10, false⟩]⟩).2.1
      rfl rfl rfl⟩

/-- C7 (amended): `place` fails with the vertical-float message for every
floating placement whose explicit vertical alignment is center or has no
vertical component; with the automatic-positioning message for every
non-floating placement with automatic alignment, including parent-scoped
ones (the automatic-positioning error takes precedence over the
parent-scope error); with the parent-scope message for every non-floating
parent-scoped placement whose alignment is not automatic; and every other
configuration is pushed as a `Placed` child without error. -/
theorem c7_place_validation :
    (∀ (ax : FixedAlignment) (ay : Smart (Option FixedAlignment))
      (scope : PlacementScope) (cl : Int),
      (ay = Smart.custom none ∨ ay = Smart.custom (some FixedAlignment.Center)) →
      place true ax ay scope cl = Except.error msgVerticalFloat) ∧
    (∀ (ax : FixedAlignment) (scope : PlacementScope) (cl : Int),
      place false ax Smart.auto scope cl = Except.error msgAutoPositioning) ∧
    (∀ (ax : FixedAlignment) (ay : Smart (Option FixedAlignment)) (cl : Int),
      ay ≠ Smart.auto →
      place false ax ay PlacementScope.parent cl = Except.error msgParentScope) ∧
    (∀ (float : Bool) (ax : FixedAlignment) (ay : Smart (Option FixedAlignment))
      (scope : PlacementScope) (cl : Int),
      ¬(float = true ∧ (ay = Smart.custom none ∨
        ay = Smart.custom (some FixedAlignment.Center))) →
      ¬(float = false ∧ ay = Smart.auto) →
      ¬(float = false ∧ scope = PlacementScope.parent) →
      place float ax ay scope cl =
        Except.ok (Child.Placed ⟨ax, ay, scope, float, cl⟩)) := by
  refine ⟨?_, ?_, ?_, ?_⟩
  · intro ax ay scope cl hay
    rcases hay with rfl | rfl <;> rfl
  · intro ax scope cl
    rfl
  · intro ax ay cl hay
    cases ay with
    | auto => exact absurd rfl hay
    | custom v => rfl
  · intro float ax ay scope cl h1 h2 h3
    cases float with
    | false =>
      cases ay with
      | auto => exact absurd ⟨rfl, rfl⟩ h2
      | custom v =>
        cases scope with
        | column => rfl
        | parent => exact absurd ⟨rfl, rfl⟩ h3
    | true =>
      cases ay with
      | auto => rfl
      | custom v =>
        cases v with
        | none => exact absurd ⟨rfl, Or.inl rfl⟩ h1
        | some a =>
          cases a with
          | Start => rfl
          | Center => exact absurd ⟨rfl, Or.inr rfl⟩ h1
          | End => rfl

/-- C7 witness: the parent-scope error applied at a concrete non-floating,
non-automatic, parent-scoped placement. -/
theorem c7_witness :
    (Smart.custom (some FixedAlignment.End) ≠
      (Smart.auto : Smart (Option FixedAlignment))) ∧
    place false FixedAlignment.Center (Smart.custom (some FixedAlignment.End))
      PlacementScope.parent 0 = Except.error msgParentScope :=
  ⟨by simp,
    (c7_place_validation).2.2.1 FixedAlignment.Center
      (Smart.custom (some FixedAlignment.End)) 0 (by simp)⟩

/-- C7 counterexample: a non-floating placement with parent scope and
automatic alignment fails with the automatic-positioning message, not the
parent-scope message the claim assigns to every non-floating parent-scoped
placement. -/
theorem c7_counterexample :
    placeErrorOf (place false FixedAlignment.Center Smart.auto
      PlacementScope.parent 0) = some msgAutoPositioning ∧
    msgAutoPositioning ≠ msgParentScope :=
  ⟨rfl, by decide⟩

/-- C9: every child the collector produces from a `V` element has weakness
equal to the boolean weak flag cast to a number, hence 0 or 1 and never the
levels 2 through 5, and it is always a `Rel` or `Fr` spacing child. -/
theorem c9_v_weakness (s : Spacing) (weak : Bool) :
    childWeakness (collectV s weak) = (if weak then 1 else 0) ∧
    childWeakness (collectV s weak) ≤ 1 ∧
    isSpacingChild (collectV s weak) = true := by
  cases s <;> cases weak <;> simp [collectV, childWeakness, isSpacingChild]

end TypstFlow

